/-
Verification of the modu-cell deterministic peer-assisted simulation
runtime: a shallow embedding of its hash, partition-assignment,
degradation-tier, trigger-overlap and prediction-rollback code, with
theorems checking the specified properties against that embedding.
Machine integers are naturals or integers with explicit wrapping modulo
2^32 where the source wraps with `>>> 0` or `| 0`.
-/
import Mathlib

namespace Modu

/-- xxHash32 prime constants (src/unnamed/part_006). -/
def PRIME32_1 : Nat := 0x9E3779B1

def PRIME32_2 : Nat := 0x85EBCA77

def PRIME32_3 : Nat := 0xC2B2AE3D

def PRIME32_4 : Nat := 0x27D4EB2F

def PRIME32_5 : Nat := 0x165667B1

/-- Addition modulo 2^32 (add32): 32-bit unsigned addition with overflow
handling. -/
def add32 (a b : Nat) : Nat := (a % 4294967296 + b % 4294967296) % 4294967296

/-- Multiplication modulo 2^32 (mul32), lower 32 bits of the product.  The
source splits each operand into 16-bit halves; `ah` embeds `a >>> 16` and
the final `>>> 0` wrap is the mod 2^32. -/
def mul32 (a b : Nat) : Nat :=
  let al := a % 4294967296 % 65536
  let ah := a % 4294967296 / 65536
  let bl := b % 4294967296 % 65536
  let bh := b % 4294967296 / 65536
  (al * bl + (al * bh + ah * bl) * 65536) % 4294967296

/-- Left rotation of a 32-bit value (rotl32):
`((value << count) | (value >>> (32 - count))) >>> 0`. -/
def rotl32 (value count : Nat) : Nat :=
  Nat.lor (value % 4294967296 * 2 ^ count % 4294967296)
    (value % 4294967296 / 2 ^ (32 - count))

/-- Little-endian 32-bit read from a byte array (readU32LE); out-of-range
reads give 0, as `undefined` coerces to 0 under the JS `|` operator. -/
def readU32LE (data : List Nat) (offset : Nat) : Nat :=
  (data.getD offset 0 + data.getD (offset + 1) 0 * 256 +
      data.getD (offset + 2) 0 * 65536 + data.getD (offset + 3) 0 * 16777216) %
    4294967296

/-- The xxHash32 round function (round). -/
def round (acc input : Nat) : Nat :=
  mul32 (rotl32 (add32 acc (mul32 input PRIME32_2)) 13) PRIME32_1

/-- The 16-byte block loop of xxhash32: while at least 16 bytes remain, feed
four little-endian words into the four accumulators.  Returns the final
accumulators and the unconsumed remainder of the byte list. -/
def processBlocks (v1 v2 v3 v4 : Nat) :
    List Nat → Nat × Nat × Nat × Nat × List Nat
  | l@(_ :: _ :: _ :: _ :: _ :: _ :: _ :: _ :: _ :: _ :: _ :: _ :: _ :: _ :: _ :: _ :: rest) =>
    processBlocks (round v1 (readU32LE l 0)) (round v2 (readU32LE l 4))
      (round v3 (readU32LE l 8)) (round v4 (readU32LE l 12)) rest
  | l => (v1, v2, v3, v4, l)

/-- The 4-byte tail loop of xxhash32 (`while (i + 4 <= len)`). -/
def processTail4 (h : Nat) : List Nat → Nat × List Nat
  | l@(_ :: _ :: _ :: _ :: rest) =>
    processTail4 (mul32 (rotl32 (add32 h (mul32 (readU32LE l 0) PRIME32_3)) 17) PRIME32_4) rest
  | l => (h, l)

/-- The final byte loop of xxhash32 (`while (i < len)`). -/
def processTail1 (h : Nat) : List Nat → Nat
  | b :: rest => processTail1 (mul32 (rotl32 (add32 h (mul32 b PRIME32_5)) 11) PRIME32_1) rest
  | [] => h

/-- Compute xxHash32 of a byte array (xxhash32, src/unnamed/part_006 lines
71-124).  Bytes are naturals below 256; every arithmetic step wraps modulo
2^32 exactly where the source applies `>>> 0` or uses add32/mul32/rotl32.
The `(seed - PRIME32_1) >>> 0` initialiser of v4 is the shown wrapped sum. -/
def xxhash32 (data : List Nat) (seed : Nat) : Nat :=
  let seed := seed % 4294967296
  let len := data.length
  let acc :=
    if 16 ≤ len then
      let v1 := add32 (add32 seed PRIME32_1) PRIME32_2
      let v2 := add32 seed PRIME32_2
      let v3 := seed
      let v4 := (seed + (4294967296 - PRIME32_1)) % 4294967296
      let r := processBlocks v1 v2 v3 v4 data
      (add32 (add32 (add32 (rotl32 r.1 1) (rotl32 r.2.1 7)) (rotl32 r.2.2.1 12))
        (rotl32 r.2.2.2.1 18), r.2.2.2.2)
    else (add32 seed PRIME32_5, data)
  let h0 := add32 acc.1 len
  let t4 := processTail4 h0 acc.2
  let h1 := processTail1 t4.1 t4.2
  let h2 := Nat.xor h1 (h1 / 32768)
  let h3 := mul32 h2 PRIME32_2
  let h4 := Nat.xor h3 (h3 / 8192)
  let h5 := mul32 h4 PRIME32_3
  Nat.xor h5 (h5 / 65536)

/-- Incrementally combine a hash with a new 32-bit value (xxhash32Combine). -/
def xxhash32Combine (existingHash newValue : Nat) : Nat :=
  let h := add32 existingHash (mul32 (newValue % 4294967296) PRIME32_3)
  let h1 := mul32 (rotl32 h 17) PRIME32_4
  let h2 := Nat.xor h1 (h1 / 32768)
  let h3 := mul32 h2 PRIME32_2
  let h4 := Nat.xor h3 (h3 / 8192)
  let h5 := mul32 h4 PRIME32_3
  Nat.xor h5 (h5 / 65536)

/-- Fixed-point scale factor (FP_SCALE = 2^16), src/unnamed/part_004. -/
def FP_SCALE : Nat := 65536

/-- Wrap of an integer into a signed 32-bit value, the JS `| 0`. -/
def toInt32 (n : Int) : Int := (n + 2147483648) % 4294967296 - 2147483648

/-- Deterministic partition count (computePartitionCount).  `Math.ceil` of
the nonnegative quotient entityCount/30 is `(entityCount + 29) / 30` on
naturals, and `clientCount <= 0` is `clientCount = 0`. -/
def computePartitionCount (entityCount clientCount : Nat) : Nat :=
  if clientCount = 0 then 1
  else if entityCount = 0 then 1
  else max 1 (min (max 1 (clientCount * 2)) ((entityCount + 29) / 30))

/-- Deterministic seed for a partition+frame combination (computePartitionSeed). -/
def computePartitionSeed (frame partitionId : Nat) : Nat :=
  xxhash32Combine (xxhash32Combine 0x12345678 (frame % 4294967296)) (partitionId % 4294967296)

/-- Simple deterministic RNG, xorshift32 (nextRandom).  XOR of the common
32-bit bit patterns is sign-independent, so the JS int32/uint32 mix reduces
to uint32 arithmetic modulo 2^32. -/
def nextRandom (state : Nat) : Nat :=
  let x0 := state % 4294967296
  let x1 := Nat.xor x0 (x0 * 8192 % 4294967296)
  let x2 := Nat.xor x1 (x1 / 131072)
  Nat.xor x2 (x2 * 32 % 4294967296)

/-- Fixed-point multiplication (mulFP): BigInt product divided by FP_SCALE.
At both call sites a < 2^16 and 0 < b < 2^31, so the trailing `Number | 0`
of the source is the identity and the result is the floored quotient. -/
def mulFP (a b : Nat) : Nat := a % 4294967296 * (b % 4294967296) / FP_SCALE

/-- Weights in fixed-point format (computeFixedPointWeights): reliability
clamped to [0,100], default 50 when absent, plus one, scaled by 2^16.  Each
weight is at most 101 * 2^16 < 2^31 so the source `| 0` is the identity. -/
def computeFixedPointWeights (clients : List String) (reliability : String → Option Int) :
    List Int :=
  clients.map fun clientId =>
    let rel := (reliability clientId).getD 50
    let clampedRel := max 0 (min 100 rel)
    (clampedRel + 1) * 65536

/-- The cumulative-weight scan of selectWeighted: cumulative sums wrap with
`| 0`; the first index whose wrapped cumulative weight exceeds the threshold
is selected, `none` when the scan falls off the end. -/
def swScan (threshold : Int) : List Int → Int → Nat → Option Nat
  | [], _, _ => none
  | w :: ws, cumulative, i =>
    let c := toInt32 (cumulative + w)
    if threshold < c then some i else swScan threshold ws c (i + 1)

/-- Select an index based on weights using fixed-point arithmetic
(selectWeighted).  The empty case returns -1 in the source and is
unreachable from weightedRandomPick, which guards a nonempty list; it is
modelled as 0.  The total weight accumulates under `| 0` int32 wrap; a
nonpositive wrapped total falls back to a uniform pick. -/
def selectWeighted (weights : List Int) (seed : Nat) : Nat :=
  if weights.length = 0 then 0
  else if weights.length = 1 then 0
  else
    let totalWeight := weights.foldl (fun acc w => toInt32 (acc + w)) 0
    if totalWeight ≤ 0 then seed % 4294967296 % weights.length
    else
      let randNormalized := seed % 4294967296 % FP_SCALE
      let threshold := (mulFP randNormalized totalWeight.toNat : Int)
      (swScan threshold weights 0 0).getD (weights.length - 1)

/-- The selection loop of weightedRandomPick: on each draw compute the
fixed-point weights of the remaining clients, select one, remove it
(`splice`), and advance the RNG. -/
def wrpLoop (reliability : String → Option Int) :
    Nat → List String → Nat → List String
  | 0, _, _ => []
  | n + 1, available, rng =>
    if available.isEmpty then []
    else
      let weights := computeFixedPointWeights available reliability
      let selectedIdx := selectWeighted weights rng
      available.getD selectedIdx "" ::
        wrpLoop reliability n (available.eraseIdx selectedIdx) (nextRandom rng)

/-- Weighted random selection without replacement (weightedRandomPick). -/
def weightedRandomPick (clients : List String) (count : Nat) (seed : Nat)
    (reliability : String → Option Int) : List String :=
  if clients.length = 0 then []
  else if clients.length ≤ count then clients
  else wrpLoop reliability count clients seed

/-- Result of partition assignment computation (PartitionAssignment); the
partition map is the list of sender lists for partition ids 0, 1, …. -/
structure PartitionAssignment where
  partitionSenders : List (List String)
  numPartitions : Nat
  frame : Nat
deriving DecidableEq, Repr

/-- Compute partition assignment for a frame (computePartitionAssignment).
JS `[...clientIds].sort()` sorts ascending by string order, modelled with
insertionSort over the linear order on String. -/
def computePartitionAssignment (entityCount : Nat) (clientIds : List String)
    (frame : Nat) (reliability : String → Option Int) (sendersPerPartition : Nat) :
    PartitionAssignment :=
  let sortedClients := clientIds.insertionSort (· ≤ ·)
  let numPartitions := computePartitionCount entityCount sortedClients.length
  { partitionSenders :=
      (List.range numPartitions).map fun partitionId =>
        weightedRandomPick sortedClients (min sendersPerPartition sortedClients.length)
          (computePartitionSeed frame partitionId) reliability
    numPartitions := numPartitions
    frame := frame }

/-- Degradation tier for when clients fail to deliver (DegradationTier). -/
inductive DegradationTier where
  | NORMAL
  | DEGRADED
  | MINIMAL
  | SKIP
deriving DecidableEq, Repr

/-- Compute degradation tier (computeDegradationTier).  Over integer counts
the float comparisons of the source are exact: received > total * 0.75 iff
4 * received > 3 * total, and received > total * 0.25 iff 4 * received > total. -/
def computeDegradationTier (totalPartitions receivedPartitions trustedSenders totalSenders : Nat) :
    DegradationTier :=
  if receivedPartitions = totalPartitions ∧ trustedSenders = totalSenders then .NORMAL
  else if receivedPartitions * 4 > totalPartitions * 3 then .DEGRADED
  else if receivedPartitions * 4 > totalPartitions then .MINIMAL
  else .SKIP

/-- Formalisation of the sampling step exactly as the spec words describe
it, with exact (unwrapped) integer arithmetic: scan the cumulative weights
for the first one exceeding the threshold. -/
def claimScan (threshold : Int) : List Int → Int → Nat → Option Nat
  | [], _, _ => none
  | w :: ws, cumulative, i =>
    if threshold < cumulative + w then some i else claimScan threshold ws (cumulative + w) (i + 1)

/-- Claim-side selection, following the spec words: reduce the RNG state
modulo 2^16, multiply by the total weight through a wide-integer
intermediate, and compare against the cumulative weights to choose the
index. -/
def claimSelectWeighted (weights : List Int) (seed : Nat) : Nat :=
  let totalWeight := weights.foldl (· + ·) 0
  let threshold := ((seed % 65536 : Nat) : Int) * totalWeight / 65536
  (claimScan threshold weights 0 0).getD (weights.length - 1)

/-- Claim-side draw loop: draw without replacement, advancing the
xorshift32 state between successive draws. -/
def claimPickLoop (reliability : String → Option Int) :
    Nat → List String → Nat → List String
  | 0, _, _ => []
  | n + 1, available, rng =>
    if available.isEmpty then []
    else
      let weights := computeFixedPointWeights available reliability
      let idx := claimSelectWeighted weights rng
      available.getD idx "" ::
        claimPickLoop reliability n (available.eraseIdx idx) (nextRandom rng)

/-- Claim-side weighted sampling of `count` distinct peers without
replacement, following the spec words. -/
def claimWeightedPick (clients : List String) (count seed : Nat)
    (reliability : String → Option Int) : List String :=
  claimPickLoop reliability count clients seed

/-- Numeric value of the leading digit prefix of a character list; 0 when
there is no digit prefix. -/
def digitsVal (cs : List Char) : Nat :=
  (cs.takeWhile (fun c => c.isDigit)).foldl (fun acc c => acc * 10 + (c.toNat - 48)) 0

/-- JS `parseInt(label, 10) || 0` as used by the trigger comparators
(src/dist/plugins/physics2d/trigger.js): optional sign, longest decimal
digit prefix, and 0 when nothing parses (parseInt yields NaN and `|| 0`
replaces it).  Leading-whitespace stripping of parseInt is omitted; body
labels are entity-id strings. -/
def jsParseInt (s : String) : Int :=
  match s.data with
  | '-' :: rest => -(digitsVal rest : Int)
  | '+' :: rest => (digitsVal rest : Int)
  | cs => (digitsVal cs : Int)

/-- The numeric (trigger eid, other eid) key of an overlap pair, each
parsed from the body label. -/
def overlapKey (p : String × String) : Int × Int := (jsParseInt p.1, jsParseInt p.2)

/-- The comparator of TriggerState.processOverlaps as a relation: by
trigger eid, ties broken by other eid (the subtraction comparator of the
source orders exactly this way). -/
def overlapLeP (a b : String × String) : Prop :=
  (overlapKey a).1 < (overlapKey b).1 ∨
    ((overlapKey a).1 = (overlapKey b).1 ∧ (overlapKey a).2 ≤ (overlapKey b).2)

instance : DecidableRel overlapLeP := fun a b => by
  unfold overlapLeP
  exact inferInstance

instance : IsTotal (String × String) overlapLeP := by
  constructor
  intro a b
  unfold overlapLeP
  omega

instance : IsTrans (String × String) overlapLeP := by
  constructor
  intro a b c h1 h2
  unfold overlapLeP at h1 h2 ⊢
  omega

/-- Strict version of the comparator order, used to state uniqueness of the
sorted visit order. -/
def overlapLt (a b : String × String) : Prop :=
  (overlapKey a).1 < (overlapKey b).1 ∨
    ((overlapKey a).1 = (overlapKey b).1 ∧ (overlapKey a).2 < (overlapKey b).2)

/-- JS `[...currentOverlaps].sort(cmp)`: a stable sort by the numeric key
(Array.prototype.sort is stable per ES2019; insertion sort is stable). -/
def sortOverlaps (cur : List (String × String)) : List (String × String) :=
  cur.insertionSort overlapLeP

/-- Map key of an overlap pair (makeKey): "trigger.label:other.label". -/
def makeKey (t o : String) : String := t ++ ":" ++ o

/-- Events fired by the trigger system, in firing order. -/
inductive TriggerEvent where
  | enter (t o : String)
  | stay (t o : String)
  | exit (t o : String)
deriving DecidableEq, Repr

/-- First loop of processOverlaps over the sorted pair list: record each
current key, fire stay for pairs already in the overlap map, fire enter and
insert for new pairs.  The JS Map is an insertion-ordered association list.
Returns the updated map, the current-key set and the fired events in order. -/
def phase1 (m : List (String × (String × String))) (ck : List String) :
    List (String × String) →
      List (String × (String × String)) × List String × List TriggerEvent
  | [] => (m, ck, [])
  | p :: rest =>
    let k := makeKey p.1 p.2
    if (m.lookup k).isSome then
      let r := phase1 m (k :: ck) rest
      (r.1, r.2.1, TriggerEvent.stay p.1 p.2 :: r.2.2)
    else
      let r := phase1 (m ++ [(k, p)]) (k :: ck) rest
      (r.1, r.2.1, TriggerEvent.enter p.1 p.2 :: r.2.2)

/-- TriggerState.processOverlaps: visit current overlaps sorted by numeric
(trigger, other) key firing stay/enter, then walk the existing map keys in
sorted string order (JS default sort) and fire exit for every key no longer
current, deleting it from the map.  Returns the fired events in order and
the new overlap map. -/
def processOverlaps (m : List (String × (String × String)))
    (cur : List (String × String)) :
    List TriggerEvent × List (String × (String × String)) :=
  let s := sortOverlaps cur
  let r := phase1 m [] s
  let sortedExistingKeys := (r.1.map Prod.fst).insertionSort (· ≤ ·)
  let vanished := sortedExistingKeys.filter (fun k => ¬ r.2.1.contains k)
  let exitEvents := vanished.filterMap (fun k =>
    (r.1.lookup k).map (fun p => TriggerEvent.exit p.1 p.2))
  (r.2.2 ++ exitEvents, r.1.filter (fun kv => r.2.1.contains kv.1))

/-- TriggerState.removeBody: collect the keys of every overlap involving
the body (identified by its label), sort them, and fire exit for each in
sorted key order while deleting them from the map. -/
def removeBody (m : List (String × (String × String))) (label : String) :
    List TriggerEvent × List (String × (String × String)) :=
  let keysToRemove :=
    (m.filter (fun kv => decide (kv.2.1 = label ∨ kv.2.2 = label))).map Prod.fst
  let sortedKeys := keysToRemove.insertionSort (· ≤ ·)
  let events := sortedKeys.filterMap (fun k =>
    (m.lookup k).map (fun p => TriggerEvent.exit p.1 p.2))
  (events, m.filter (fun kv => ¬ decide (kv.2.1 = label ∨ kv.2.2 = label)))

/-- The keys of the exit events of an event list, in firing order. -/
def exitKeys (evs : List TriggerEvent) : List String :=
  evs.filterMap (fun e =>
    match e with
    | TriggerEvent.exit t o => some (makeKey t o)
    | _ => none)

/-- Modelled from the spec: the payload of an input record is either a
lifecycle event (join, leave, resync_request) or an opaque game input,
abstracted as a numeric payload.  The PredictionManager source file
(src/prediction/prediction-manager.ts) is not among the provided sources;
only its unit tests are, so the manager is modelled from spec section 4.5
with its unit tests pinning the behavior where the two disagree. -/
inductive PMInputData where
  | join
  | leave
  | resyncRequest
  | game (payload : Nat)
deriving DecidableEq, Repr

/-- Whether an input payload is a lifecycle event. -/
def PMInputData.isLifecycle : PMInputData → Bool
  | .join => true
  | .leave => true
  | .resyncRequest => true
  | .game _ => false

/-- Modelled from the spec: an authoritative server input record
{seq, clientId, data}. -/
structure PMServerInput where
  seq : Nat
  clientId : String
  data : PMInputData
deriving DecidableEq, Repr

/-- Modelled from the spec: the observable state of the PredictionManager.
The world object is opaque; its tick calls are recorded in tickLog (the
frame numbers passed to world.tick, in call order).  The snapshot ring is
the list of frames for which a snapshot is held.  The input history maps a
frame to its per-peer inputs with a confirmed flag.  warnCount counts the
log-and-abort warnings of a rollback whose snapshot is missing. -/
structure PMState where
  localFrame : Nat
  confirmedFrame : Nat
  enabled : Bool
  rollbackCount : Nat
  framesResimulated : Nat
  maxRollbackDepth : Nat
  snapshots : List Nat
  history : List (Nat × List (String × (PMInputData × Bool)))
  tickLog : List Nat
  warnCount : Nat
deriving DecidableEq, Repr

/-- Overwrite the entry of one peer inside a frame input set. -/
def setFrameInput (fs : List (String × (PMInputData × Bool))) (c : String)
    (v : PMInputData × Bool) : List (String × (PMInputData × Bool)) :=
  (c, v) :: fs.filter (fun p => ¬ p.1 = c)

/-- Overwrite one peer's entry of one frame of the history. -/
def historySet (h : List (Nat × List (String × (PMInputData × Bool)))) (f : Nat)
    (c : String) (v : PMInputData × Bool) :
    List (Nat × List (String × (PMInputData × Bool))) :=
  (f, setFrameInput ((h.lookup f).getD []) c v) :: h.filter (fun p => ¬ p.1 = f)

/-- Modelled from the spec: store every received input as confirmed in the
input history (receive_server_tick, "Store all of I as confirmed"). -/
def storeConfirmed (st : PMState) (f : Nat) (inputs : List PMServerInput) : PMState :=
  { st with history := (inputs.foldl
      (fun hh i => historySet hh f i.clientId (i.data, true)) st.history) }

/-- Modelled from the spec: a game input mispredicts when the history entry
for its peer at the frame is missing, carries different data, or was only a
prediction (receive_server_tick, misprediction check). -/
def misprediction (st : PMState) (f : Nat) (i : PMServerInput) : Bool :=
  match ((st.history.lookup f).getD []).lookup i.clientId with
  | none => true
  | some (d, confirmed) => ¬ (d = i.data ∧ confirmed = true)

/-- Modelled from the spec: execute_rollback to frame f (spec section 4.5).
The snapshot at frame f - 1 must be in the ring; when absent the rollback
warns and aborts without resimulating (MissingSnapshot).  Otherwise frames
f .. localFrame are resimulated (each ticked and its corrected snapshot
saved) and the stats are updated.  The stats increments follow the
repository's own tests (src/tests/test-prediction-manager.ts,
"executeRollback stats"): rollback_count += 1,
frames_resimulated += localFrame - f and
max_rollback_depth = max(old, localFrame - f); the spec text instead claims
the last two increments are localFrame - f + 1.  The lifecycle undo/replay
steps only drive external callbacks and are not part of the state. -/
def executeRollback (st : PMState) (f : Nat) : PMState :=
  if (f - 1) ∈ st.snapshots then
    let resimFrames := (List.range (st.localFrame + 1 - f)).map (fun k => f + k)
    let depth := st.localFrame - f
    { st with
        tickLog := st.tickLog ++ resimFrames
        snapshots := st.snapshots ++ resimFrames
        rollbackCount := st.rollbackCount + 1
        framesResimulated := st.framesResimulated + depth
        maxRollbackDepth := max st.maxRollbackDepth depth }
  else { st with warnCount := st.warnCount + 1 }

/-- Modelled from the spec: store the received inputs as confirmed and
advance confirmed_frame to max(confirmed_frame, f). -/
def confirmTick (st : PMState) (f : Nat) (inputs : List PMServerInput) : PMState :=
  { storeConfirmed st f inputs with
      confirmedFrame := max (storeConfirmed st f inputs).confirmedFrame f }

/-- Modelled from the spec: receive_server_tick for frame f with
authoritative inputs I (spec section 4.5).  Nothing happens while
prediction is disabled (per the tests).  A future frame stores inputs and
never rolls back.  For a past or current frame, any lifecycle event forces
a rollback unconditionally; otherwise a rollback happens exactly when some
game input mispredicts.  Returns the new state and whether a rollback was
executed. -/
def receiveServerTick (st : PMState) (f : Nat) (inputs : List PMServerInput) :
    PMState × Bool :=
  if st.enabled = false then (st, false)
  else if st.localFrame < f then (storeConfirmed st f inputs, false)
  else if inputs.any (fun i => !i.data.isLifecycle && misprediction st f i) ||
      inputs.any (fun i => i.data.isLifecycle) then
    (executeRollback (confirmTick st f inputs) f, true)
  else (confirmTick st f inputs, false)

/-- Concrete PredictionManager state: the manager has simulated frames 1..3
and holds snapshots for frames 0..2. -/
def pmEx : PMState :=
  { localFrame := 3, confirmedFrame := 0, enabled := true, rollbackCount := 0,
    framesResimulated := 0, maxRollbackDepth := 0, snapshots := [0, 1, 2],
    history := [], tickLog := [1, 2, 3], warnCount := 0 }

end Modu

namespace Modu

theorem toInt32_eq_self {n : Int} (h1 : -2147483648 ≤ n) (h2 : n < 2147483648) :
    toInt32 n = n := by
  unfold toInt32
  omega

theorem foldl_add_shift (l : List Int) (a : Int) :
    l.foldl (· + ·) a = a + l.foldl (· + ·) 0 := by
  induction l generalizing a with
  | nil => simp
  | cons w ws ih =>
    simp only [List.foldl_cons]
    rw [ih (a + w), ih (0 + w)]
    ring

theorem foldl_add_cons (w : Int) (ws : List Int) :
    (w :: ws).foldl (· + ·) 0 = w + ws.foldl (· + ·) 0 := by
  rw [List.foldl_cons, foldl_add_shift]
  omega

theorem foldl_add_nonneg (l : List Int) (h : ∀ w ∈ l, 0 ≤ w) :
    0 ≤ l.foldl (· + ·) 0 := by
  induction l with
  | nil => simp
  | cons w ws ih =>
    rw [foldl_add_cons]
    have hw := h w (by simp)
    have hws := ih (fun x hx => h x (by simp [hx]))
    omega

theorem foldl_add_le (l : List Int) (h : ∀ w ∈ l, w ≤ 6619136) :
    l.foldl (· + ·) 0 ≤ (l.length : Int) * 6619136 := by
  induction l with
  | nil => simp
  | cons w ws ih =>
    rw [foldl_add_cons]
    have hw := h w (by simp)
    have hws := ih (fun x hx => h x (by simp [hx]))
    simp only [List.length_cons]
    push_cast
    omega

theorem foldl_add_lb (w : Int) (ws : List Int)
    (h : ∀ x ∈ (w :: ws), 65536 ≤ x) :
    65536 ≤ (w :: ws).foldl (· + ·) 0 := by
  rw [foldl_add_cons]
  have hw := h w (by simp)
  have hws : 0 ≤ ws.foldl (· + ·) 0 :=
    foldl_add_nonneg ws (fun x hx => by have := h x (by simp [hx]); omega)
  omega

theorem weight_bounds (clients : List String) (rel : String → Option Int) :
    ∀ w ∈ computeFixedPointWeights clients rel, 65536 ≤ w ∧ w ≤ 6619136 := by
  intro w hw
  unfold computeFixedPointWeights at hw
  simp only [List.mem_map] at hw
  obtain ⟨c, _, rfl⟩ := hw
  have := le_max_left (0 : Int) (min 100 ((rel c).getD 50))
  have := min_le_left (100 : Int) ((rel c).getD 50)
  constructor <;> omega

theorem foldl_toInt32_eq (l : List Int) (a : Int) (ha : 0 ≤ a)
    (hpos : ∀ w ∈ l, 0 ≤ w)
    (hsum : a + l.foldl (· + ·) 0 < 2147483648) :
    l.foldl (fun acc w => toInt32 (acc + w)) a = a + l.foldl (· + ·) 0 := by
  induction l generalizing a with
  | nil => simp
  | cons w ws ih =>
    simp only [List.foldl_cons]
    have hw : 0 ≤ w := hpos w (by simp)
    have hws : ∀ x ∈ ws, 0 ≤ x := fun x hx => hpos x (by simp [hx])
    have hsws : 0 ≤ ws.foldl (· + ·) 0 := foldl_add_nonneg ws hws
    have hsum2 : a + w + ws.foldl (· + ·) 0 < 2147483648 := by
      rw [foldl_add_cons] at hsum
      omega
    have hid : toInt32 (a + w) = a + w := toInt32_eq_self (by omega) (by omega)
    rw [hid, ih (a + w) (by omega) hws hsum2, foldl_add_shift ws (0 + w)]
    omega

theorem swScan_eq_claimScan (threshold : Int) (l : List Int) (c : Int) (i : Nat)
    (hc : 0 ≤ c) (hpos : ∀ w ∈ l, 0 ≤ w)
    (hbound : c + l.foldl (· + ·) 0 < 2147483648) :
    swScan threshold l c i = claimScan threshold l c i := by
  induction l generalizing c i with
  | nil => rfl
  | cons w ws ih =>
    have hw : 0 ≤ w := hpos w (by simp)
    have hws : ∀ x ∈ ws, 0 ≤ x := fun x hx => hpos x (by simp [hx])
    have hsws : 0 ≤ ws.foldl (· + ·) 0 := foldl_add_nonneg ws hws
    have hb2 : c + w + ws.foldl (· + ·) 0 < 2147483648 := by
      rw [foldl_add_cons] at hbound
      omega
    have hid : toInt32 (c + w) = c + w := toInt32_eq_self (by omega) (by omega)
    unfold swScan claimScan
    simp only [hid]
    split_ifs
    · rfl
    · exact ih (c + w) (i + 1) (by omega) hws hb2

theorem selectWeighted_eq (ws : List Int) (seed : Nat)
    (hb : ∀ w ∈ ws, 65536 ≤ w ∧ w ≤ 6619136) (hlen : ws.length ≤ 324) :
    selectWeighted ws seed = claimSelectWeighted ws seed := by
  cases ws with
  | nil => simp [selectWeighted, claimSelectWeighted, claimScan]
  | cons w tail =>
    cases tail with
    | nil =>
      have hw := (hb w (by simp)).1
      have hu : seed % 65536 < 65536 := Nat.mod_lt _ (by norm_num)
      have hth : ((seed : Int) % 65536) * w / 65536 < w := by
        rw [Int.ediv_lt_iff_lt_mul (by norm_num : (0 : ℤ) < 65536)]
        have hc1 : ((seed : Int) % 65536) < 65536 := Int.emod_lt_of_pos _ (by norm_num)
        have hc2 : (0 : ℤ) ≤ (seed : Int) % 65536 := Int.emod_nonneg _ (by norm_num)
        have hwpos : (0 : ℤ) < w := by omega
        nlinarith
      simp [selectWeighted, claimSelectWeighted, claimScan, hth]
    | cons w2 rest =>
      have hpos : ∀ x ∈ (w :: w2 :: rest), 0 ≤ x := fun x hx => by
        have := (hb x hx).1; omega
      have hlb : ∀ x ∈ (w :: w2 :: rest), 65536 ≤ x := fun x hx => (hb x hx).1
      have hub : ∀ x ∈ (w :: w2 :: rest), x ≤ 6619136 := fun x hx => (hb x hx).2
      have htot_lb : 65536 ≤ (w :: w2 :: rest).foldl (· + ·) 0 := foldl_add_lb _ _ hlb
      have htot_ub : (w :: w2 :: rest).foldl (· + ·) 0 ≤ 2144600064 := by
        have h1 := foldl_add_le _ hub
        have h2 : ((w :: w2 :: rest).length : Int) ≤ 324 := by exact_mod_cast hlen
        nlinarith
      have hfold : (w :: w2 :: rest).foldl (fun acc x => toInt32 (acc + x)) 0 =
          (w :: w2 :: rest).foldl (· + ·) 0 := by
        have := foldl_toInt32_eq (w :: w2 :: rest) 0 le_rfl hpos (by omega)
        simpa using this
      have hscan : swScan (((seed % 65536 : Nat) : Int) * ((w :: w2 :: rest).foldl (· + ·) 0) / 65536)
            (w :: w2 :: rest) 0 0 =
          claimScan (((seed % 65536 : Nat) : Int) * ((w :: w2 :: rest).foldl (· + ·) 0) / 65536)
            (w :: w2 :: rest) 0 0 :=
        swScan_eq_claimScan _ _ 0 0 le_rfl hpos (by omega)
      have hmod : seed % 4294967296 % FP_SCALE = seed % 65536 :=
        Nat.mod_mod_of_dvd seed ⟨65536, rfl⟩
      have hmulfp : (mulFP (seed % 65536) ((w :: w2 :: rest).foldl (· + ·) 0).toNat : Int) =
          ((seed % 65536 : Nat) : Int) * ((w :: w2 :: rest).foldl (· + ·) 0) / 65536 := by
        unfold mulFP FP_SCALE
        have h1 : seed % 65536 % 4294967296 = seed % 65536 :=
          Nat.mod_eq_of_lt (by have := Nat.mod_lt seed (show 0 < 65536 by norm_num); omega)
        have h2 : ((w :: w2 :: rest).foldl (· + ·) 0).toNat % 4294967296 =
            ((w :: w2 :: rest).foldl (· + ·) 0).toNat := by
          apply Nat.mod_eq_of_lt
          omega
        rw [h1, h2]
        push_cast [Int.toNat_of_nonneg (show (0:ℤ) ≤ (w :: w2 :: rest).foldl (· + ·) 0 by omega)]
        rfl
      unfold selectWeighted claimSelectWeighted
      simp only [hfold, hmod, List.length_cons]
      rw [if_neg (by omega), if_neg (by omega), if_neg (by omega)]
      rw [hmulfp, hscan]

theorem swScan_some_lt (threshold : Int) (l : List Int) (c : Int) (i j : Nat)
    (h : swScan threshold l c i = some j) : j < i + l.length := by
  induction l generalizing c i with
  | nil => simp [swScan] at h
  | cons w ws ih =>
    simp only [swScan] at h
    split_ifs at h with hcond
    · simp only [Option.some_inj] at h
      subst h
      simp
    · have := ih _ _ h
      simp only [List.length_cons]
      omega

theorem selectWeighted_lt (ws : List Int) (seed : Nat) (hne : ws ≠ []) :
    selectWeighted ws seed < ws.length := by
  have hlen : 0 < ws.length := by
    cases ws with
    | nil => exact absurd rfl hne
    | cons a l => simp
  unfold selectWeighted
  split_ifs with h0 h1
  · omega
  · omega
  · show (if List.foldl (fun acc w => toInt32 (acc + w)) 0 ws ≤ 0 then
        seed % 4294967296 % ws.length
      else
        ((swScan ((mulFP (seed % 4294967296 % FP_SCALE)
            ((List.foldl (fun acc w => toInt32 (acc + w)) 0 ws).toNat) : Nat) : Int) ws 0 0).getD
          (ws.length - 1))) < ws.length
    have key : ∀ (o : Option Nat), (∀ j, o = some j → j < ws.length) →
        o.getD (ws.length - 1) < ws.length := by
      intro o ho
      cases o with
      | none => simp only [Option.getD_none]; omega
      | some j => simpa using ho j rfl
    split_ifs with htw
    · exact Nat.mod_lt _ hlen
    · apply key
      intro j hj
      have := swScan_some_lt _ _ _ _ _ hj
      omega

theorem computeFixedPointWeights_length (clients : List String) (rel : String → Option Int) :
    (computeFixedPointWeights clients rel).length = clients.length := by
  unfold computeFixedPointWeights
  exact List.length_map _ _

theorem computeFixedPointWeights_ne_nil (clients : List String) (rel : String → Option Int)
    (h : clients ≠ []) : computeFixedPointWeights clients rel ≠ [] := by
  intro hc
  apply h
  have hl := computeFixedPointWeights_length clients rel
  rw [hc] at hl
  exact List.length_eq_zero.mp hl.symm

theorem wrpLoop_length (rel : String → Option Int) (n : Nat) (available : List String)
    (rng : Nat) : (wrpLoop rel n available rng).length = min n available.length := by
  induction n generalizing available rng with
  | zero => simp [wrpLoop]
  | succ n ih =>
    unfold wrpLoop
    by_cases he : available.isEmpty
    · simp only [he, if_pos]
      have hae : available = [] := List.isEmpty_iff.mp he
      subst hae
      simp
    · simp only [he, Bool.false_eq_true, if_neg, not_false_iff]
      have hne : available ≠ [] := by
        intro hc
        subst hc
        simp at he
      have hidx : selectWeighted (computeFixedPointWeights available rel)
          rng < available.length := by
        have := selectWeighted_lt (computeFixedPointWeights available rel) rng
          (computeFixedPointWeights_ne_nil available rel hne)
        rwa [computeFixedPointWeights_length] at this
      have hel : (available.eraseIdx (selectWeighted
          (computeFixedPointWeights available rel) rng)).length = available.length - 1 := by
        rw [List.length_eraseIdx]
        simp [hidx]
      simp only [List.length_cons, ih, hel]
      omega

theorem wrpLoop_eq_claimPickLoop (rel : String → Option Int) (n : Nat)
    (available : List String) (rng : Nat) (hlen : available.length ≤ 324) :
    wrpLoop rel n available rng = claimPickLoop rel n available rng := by
  induction n generalizing available rng with
  | zero => rfl
  | succ n ih =>
    unfold wrpLoop claimPickLoop
    by_cases he : available.isEmpty
    · simp [he]
    · simp only [he, Bool.false_eq_true, if_neg, not_false_iff]
      have hsel : selectWeighted (computeFixedPointWeights available rel) rng =
          claimSelectWeighted (computeFixedPointWeights available rel) rng :=
        selectWeighted_eq _ _ (weight_bounds available rel)
          (by rw [computeFixedPointWeights_length]; exact hlen)
      rw [hsel]
      congr 1
      apply ih
      calc (available.eraseIdx _).length ≤ available.length := by
            rw [List.length_eraseIdx]
            split_ifs <;> omega
        _ ≤ 324 := hlen

theorem weightedRandomPick_all {clients : List String} {count seed : Nat}
    {rel : String → Option Int} (h : clients.length ≤ count) :
    weightedRandomPick clients count seed rel = clients := by
  unfold weightedRandomPick
  split_ifs with h0 h1
  · exact (List.length_eq_zero.mp h0).symm
  · rfl

theorem sortOverlaps_sorted (cur : List (String × String)) :
    (sortOverlaps cur).Pairwise overlapLeP :=
  List.sorted_insertionSort overlapLeP cur

theorem sortOverlaps_eq_of_perm (cur cur' : List (String × String))
    (hperm : cur.Perm cur')
    (hkeys : cur.Pairwise (fun a b => overlapKey a ≠ overlapKey b)) :
    sortOverlaps cur = sortOverlaps cur' := by
  haveI : IsAntisymm (String × String) overlapLt := by
    constructor
    intro a b h1 h2
    exfalso
    unfold overlapLt at h1 h2
    omega
  have hp : (sortOverlaps cur).Perm (sortOverlaps cur') :=
    ((List.perm_insertionSort overlapLeP cur).trans hperm).trans
      (List.perm_insertionSort overlapLeP cur').symm
  have hsymm : ∀ {x y : String × String},
      overlapKey x ≠ overlapKey y → overlapKey y ≠ overlapKey x :=
    fun h hc => h hc.symm
  have hkeys1 : (sortOverlaps cur).Pairwise (fun a b => overlapKey a ≠ overlapKey b) :=
    (List.Perm.pairwise_iff hsymm (List.perm_insertionSort overlapLeP cur)).mpr hkeys
  have hkeys2 : (sortOverlaps cur').Pairwise (fun a b => overlapKey a ≠ overlapKey b) :=
    (List.Perm.pairwise_iff hsymm hp).mp hkeys1
  have strict : ∀ a b : String × String, overlapLeP a b →
      overlapKey a ≠ overlapKey b → overlapLt a b := by
    intro a b h1 h2
    have h3 : ¬((overlapKey a).1 = (overlapKey b).1 ∧ (overlapKey a).2 = (overlapKey b).2) := by
      intro hc
      exact h2 (Prod.ext hc.1 hc.2)
    unfold overlapLeP at h1
    unfold overlapLt
    omega
  have hs1 : List.Sorted overlapLt (sortOverlaps cur) :=
    ((sortOverlaps_sorted cur).and hkeys1).imp (fun h => strict _ _ h.1 h.2)
  have hs2 : List.Sorted overlapLt (sortOverlaps cur') :=
    ((sortOverlaps_sorted cur').and hkeys2).imp (fun h => strict _ _ h.1 h.2)
  exact List.eq_of_perm_of_sorted hp hs1 hs2

theorem phase1_exitKeys_nil (l : List (String × String))
    (m : List (String × (String × String))) (ck : List String) :
    exitKeys (phase1 m ck l).2.2 = [] := by
  induction l generalizing m ck with
  | nil => rfl
  | cons p rest ih =>
    unfold phase1
    by_cases hl : ((m.lookup (makeKey p.1 p.2)).isSome : Bool)
    · simp only [hl, if_pos]
      unfold exitKeys at ih ⊢
      simp only [List.filterMap_cons]
      exact ih m _
    · simp only [hl, Bool.false_eq_true, if_neg, not_false_iff]
      unfold exitKeys at ih ⊢
      simp only [List.filterMap_cons]
      exact ih _ _

theorem phase1_wf (l : List (String × String)) (m : List (String × (String × String)))
    (ck : List String) (hwf : ∀ kv ∈ m, kv.1 = makeKey kv.2.1 kv.2.2) :
    ∀ kv ∈ (phase1 m ck l).1, kv.1 = makeKey kv.2.1 kv.2.2 := by
  induction l generalizing m ck with
  | nil => exact hwf
  | cons p rest ih =>
    unfold phase1
    by_cases hl : ((m.lookup (makeKey p.1 p.2)).isSome : Bool)
    · simp only [hl, if_pos]
      exact ih m _ hwf
    · simp only [hl, Bool.false_eq_true, if_neg, not_false_iff]
      apply ih
      intro kv hkv
      rcases List.mem_append.mp hkv with h | h
      · exact hwf kv h
      · simp only [List.mem_singleton] at h
        subst h
        rfl

theorem lookup_wf (m : List (String × (String × String)))
    (hwf : ∀ kv ∈ m, kv.1 = makeKey kv.2.1 kv.2.2) (k : String)
    (hk : k ∈ m.map Prod.fst) :
    ∃ p, m.lookup k = some p ∧ makeKey p.1 p.2 = k := by
  induction m with
  | nil => simp at hk
  | cons kv rest ih =>
    by_cases hbeq : k = kv.1
    · refine ⟨kv.2, ?_, ?_⟩
      · simp [List.lookup, hbeq]
      · rw [← (hwf kv (by simp)), hbeq]
    · have hmem : k ∈ rest.map Prod.fst := by
        rcases List.mem_map.mp hk with ⟨x, hx, hfst⟩
        rcases List.mem_cons.mp hx with h | h
        · exact absurd (by rw [← hfst, h]) hbeq
        · exact List.mem_map.mpr ⟨x, h, hfst⟩
      obtain ⟨p, hl, hmk⟩ := ih (fun x hx => hwf x (by simp [hx])) hmem
      refine ⟨p, ?_, hmk⟩
      have hb : (k == kv.1) = false := beq_eq_false_iff_ne.mpr hbeq
      simp [List.lookup, hb, hl]

theorem exitKeys_filterMap_lookup (v : List String) (m : List (String × (String × String)))
    (h : ∀ k ∈ v, ∃ p, m.lookup k = some p ∧ makeKey p.1 p.2 = k) :
    exitKeys (v.filterMap (fun k => (m.lookup k).map
      (fun p => TriggerEvent.exit p.1 p.2))) = v := by
  induction v with
  | nil => rfl
  | cons k ks ih =>
    obtain ⟨p, hl, hmk⟩ := h k (by simp)
    unfold exitKeys at ih ⊢
    simp only [List.filterMap_cons, hl, Option.map_some']
    rw [ih (fun x hx => h x (by simp [hx])), hmk]

end Modu

open Modu in
/-- C1: computePartitionAssignment is invariant under permutation of the
peer list: for every entity count, frame, reliability map,
senders-per-partition and peer list, every permutation of the peers yields
the same number of partitions and, for every partition id, the identical
ordered sender list. -/
theorem C1_assignment_perm_invariant (e f s pid : Nat) (rel : String → Option Int)
    (P Q : List String) (h : P.Perm Q) :
    (computePartitionAssignment e P f rel s).numPartitions =
      (computePartitionAssignment e Q f rel s).numPartitions ∧
    (computePartitionAssignment e P f rel s).partitionSenders.getD pid [] =
      (computePartitionAssignment e Q f rel s).partitionSenders.getD pid [] := by
  have hsort : P.insertionSort (· ≤ ·) = Q.insertionSort (· ≤ ·) :=
    List.eq_of_perm_of_sorted
      (((List.perm_insertionSort _ P).trans h).trans (List.perm_insertionSort _ Q).symm)
      (List.sorted_insertionSort _ P) (List.sorted_insertionSort _ Q)
  have key : computePartitionAssignment e P f rel s = computePartitionAssignment e Q f rel s := by
    unfold computePartitionAssignment
    rw [hsort]
  exact ⟨by rw [key], by rw [key]⟩

open Modu in
/-- Witness for C1 at the concrete peer lists ["b", "a"] and ["a", "b"]. -/
theorem C1_witness :
    (["b", "a"] : List String).Perm ["a", "b"] ∧
    ((computePartitionAssignment 100 ["b", "a"] 7 (fun _ => none) 2).numPartitions =
        (computePartitionAssignment 100 ["a", "b"] 7 (fun _ => none) 2).numPartitions ∧
      (computePartitionAssignment 100 ["b", "a"] 7 (fun _ => none) 2).partitionSenders.getD 0 [] =
        (computePartitionAssignment 100 ["a", "b"] 7 (fun _ => none) 2).partitionSenders.getD 0 []) :=
  ⟨by decide, C1_assignment_perm_invariant 100 7 2 0 (fun _ => none) _ _ (by decide)⟩

open Modu in
/-- C2: xxhash32 of the empty byte array is 0x02CC5D05 with seed 0 and
0x0B2CB792 with seed 1; the embedding performs every intermediate step as
32-bit unsigned arithmetic modulo 2^32. -/
theorem C2_xxhash32_empty_vectors :
    xxhash32 [] 0 = 0x02CC5D05 ∧ xxhash32 [] 1 = 0x0B2CB792 := by
  constructor
  · decide
  · decide

open Modu in
/-- Counterexample to C3 as stated: with two peers and
senders_per_partition = 2 the source returns the full sorted peer list
without consulting the sampling procedure at all, while the claimed
weighted sampling draws the far heavier peer "b" first, producing a
different ordered sender list. -/
theorem C3_counterexample :
    weightedRandomPick ["a", "b"] 2 643 (fun c => if c = "b" then some 100 else some 0) ≠
      claimWeightedPick ["a", "b"] 2 643 (fun c => if c = "b" then some 100 else some 0) := by
  decide

open Modu in
/-- C3 (amended): for at most 324 peers (total fixed-point weight below
2^31, so no int32 wrap) and peer count above the requested sender count,
each partition's sender list is produced exactly by the claimed fixed-point
weighted sampling without replacement: clamped-reliability-plus-one weights
scaled by 2^16, RNG state reduced modulo 2^16 and multiplied by the total
weight through a wide-integer intermediate, compared against cumulative
weights, with the xorshift32 state advanced between draws; the list has
min(senders_per_partition, peer_count) entries. -/
theorem C3_amended (e frame spp pid : Nat) (P : List String) (rel : String → Option Int)
    (h324 : P.length ≤ 324) (hspp : spp < P.length)
    (hpid : pid < (computePartitionAssignment e P frame rel spp).numPartitions) :
    (computePartitionAssignment e P frame rel spp).partitionSenders.getD pid [] =
      claimWeightedPick (P.insertionSort (· ≤ ·)) (min spp P.length)
        (computePartitionSeed frame pid) rel ∧
    ((computePartitionAssignment e P frame rel spp).partitionSenders.getD pid []).length =
      min spp P.length := by
  have hs : (P.insertionSort (· ≤ ·)).length = P.length := List.length_insertionSort _ P
  have hsenders : (computePartitionAssignment e P frame rel spp).partitionSenders =
      (List.range (computePartitionCount e (P.insertionSort (· ≤ ·)).length)).map
        (fun partitionId => weightedRandomPick (P.insertionSort (· ≤ ·))
          (min spp (P.insertionSort (· ≤ ·)).length)
          (computePartitionSeed frame partitionId) rel) := rfl
  have hnum : (computePartitionAssignment e P frame rel spp).numPartitions =
      computePartitionCount e (P.insertionSort (· ≤ ·)).length := rfl
  rw [hnum] at hpid
  have hget : (computePartitionAssignment e P frame rel spp).partitionSenders.getD pid [] =
      weightedRandomPick (P.insertionSort (· ≤ ·)) (min spp P.length)
        (computePartitionSeed frame pid) rel := by
    rw [hsenders, List.getD_eq_getElem?_getD, List.getElem?_map, List.getElem?_range hpid]
    simp [hs]
  have hwrp : weightedRandomPick (P.insertionSort (· ≤ ·)) (min spp P.length)
      (computePartitionSeed frame pid) rel =
      wrpLoop rel (min spp P.length) (P.insertionSort (· ≤ ·))
        (computePartitionSeed frame pid) := by
    unfold weightedRandomPick
    rw [if_neg (by rw [hs]; omega), if_neg (by rw [hs]; omega)]
  constructor
  · rw [hget, hwrp]
    unfold claimWeightedPick
    exact wrpLoop_eq_claimPickLoop rel _ _ _ (by rw [hs]; exact h324)
  · rw [hget, hwrp, wrpLoop_length, hs]
    omega

open Modu in
/-- Witness for C3 at 3 peers, 2 senders per partition, frame 42. -/
theorem C3_witness :
    (["c", "a", "b"] : List String).length ≤ 324 ∧
    2 < (["c", "a", "b"] : List String).length ∧
    0 < (computePartitionAssignment 100 ["c", "a", "b"] 42 (fun _ => some 80) 2).numPartitions ∧
    ((computePartitionAssignment 100 ["c", "a", "b"] 42
          (fun _ => some 80) 2).partitionSenders.getD 0 [] =
        claimWeightedPick ((["c", "a", "b"] : List String).insertionSort (· ≤ ·))
          (min 2 (["c", "a", "b"] : List String).length) (computePartitionSeed 42 0)
          (fun _ => some 80) ∧
      ((computePartitionAssignment 100 ["c", "a", "b"] 42
          (fun _ => some 80) 2).partitionSenders.getD 0 []).length =
        min 2 (["c", "a", "b"] : List String).length) := by
  have hnum : (computePartitionAssignment 100 ["c", "a", "b"] 42
      (fun _ => some 80) 2).numPartitions =
      computePartitionCount 100
        ((["c", "a", "b"] : List String).insertionSort (· ≤ ·)).length := rfl
  have hpid : 0 < (computePartitionAssignment 100 ["c", "a", "b"] 42
      (fun _ => some 80) 2).numPartitions := by
    rw [hnum, List.length_insertionSort]
    decide
  exact ⟨by decide, by decide, hpid,
    C3_amended 100 42 2 0 ["c", "a", "b"] (fun _ => some 80) (by decide) (by decide) hpid⟩

open Modu in
/-- Counterexample to C4 as stated: rolling back from local frame 3 to
frame 1 with the snapshot at frame 0 present increases frames_resimulated
by 2, not by 3 - 1 + 1 = 3, and leaves max_rollback_depth at 2, below
3 - 1 + 1 = 3, matching the expectations of the repository's unit tests. -/
theorem C4_counterexample :
    (1 - 1) ∈ pmEx.snapshots ∧
    (executeRollback pmEx 1).framesResimulated ≠
      pmEx.framesResimulated + (pmEx.localFrame - 1 + 1) ∧
    (executeRollback pmEx 1).maxRollbackDepth < pmEx.localFrame - 1 + 1 := by
  refine ⟨by decide, by decide, by decide⟩

open Modu in
/-- C4 (amended): after execute_rollback completes from local frame L back
to frame f with the snapshot at frame f - 1 present in the ring,
rollback_count increases by exactly 1, frames_resimulated increases by
exactly L - f, and max_rollback_depth is at least L - f. -/
theorem C4_rollback_stats (st : PMState) (f : Nat) (hf : f ≤ st.localFrame)
    (hsnap : (f - 1) ∈ st.snapshots) :
    (executeRollback st f).rollbackCount = st.rollbackCount + 1 ∧
    (executeRollback st f).framesResimulated =
      st.framesResimulated + (st.localFrame - f) ∧
    st.localFrame - f ≤ (executeRollback st f).maxRollbackDepth := by
  unfold executeRollback
  rw [if_pos hsnap]
  exact ⟨rfl, rfl, le_max_right _ _⟩

open Modu in
/-- Witness for C4 at the concrete state pmEx, rolling back to frame 1. -/
theorem C4_witness :
    1 ≤ pmEx.localFrame ∧ (1 - 1) ∈ pmEx.snapshots ∧
    ((executeRollback pmEx 1).rollbackCount = pmEx.rollbackCount + 1 ∧
      (executeRollback pmEx 1).framesResimulated =
        pmEx.framesResimulated + (pmEx.localFrame - 1) ∧
      pmEx.localFrame - 1 ≤ (executeRollback pmEx 1).maxRollbackDepth) :=
  ⟨by decide, by decide, C4_rollback_stats pmEx 1 (by decide) (by decide)⟩

open Modu in
/-- C5: while prediction is enabled, a server tick for a frame f at or
before the local frame whose authoritative inputs contain a lifecycle event
executes a rollback to f and returns true, whatever the game inputs are
(the input list is arbitrary beyond the lifecycle member, so no
misprediction condition is required): the rollback counter increases and
frames f .. localFrame are ticked again. -/
theorem C5_lifecycle_forces_rollback (st : PMState) (f : Nat)
    (inputs : List PMServerInput) (hen : st.enabled = true) (hf : f ≤ st.localFrame)
    (hlc : ∃ i ∈ inputs, i.data.isLifecycle = true)
    (hsnap : (f - 1) ∈ st.snapshots) :
    (receiveServerTick st f inputs).2 = true ∧
    (receiveServerTick st f inputs).1.rollbackCount = st.rollbackCount + 1 ∧
    (receiveServerTick st f inputs).1.tickLog =
      st.tickLog ++ (List.range (st.localFrame + 1 - f)).map (fun k => f + k) := by
  have hlcb : inputs.any (fun i => i.data.isLifecycle) = true := by
    obtain ⟨i, hi, hd⟩ := hlc
    exact List.any_eq_true.mpr ⟨i, hi, hd⟩
  unfold receiveServerTick
  rw [if_neg (by simp [hen]), if_neg (by omega),
    if_pos (Bool.or_eq_true _ _ |>.mpr (Or.inr hlcb))]
  unfold executeRollback
  rw [if_pos (show (f - 1) ∈ (confirmTick st f inputs).snapshots from hsnap)]
  exact ⟨rfl, rfl, rfl⟩

open Modu in
/-- Witness for C5 at pmEx with a join event and a game input at frame 1. -/
theorem C5_witness :
    pmEx.enabled = true ∧ 1 ≤ pmEx.localFrame ∧ (1 - 1) ∈ pmEx.snapshots ∧
    ((receiveServerTick pmEx 1 [⟨1, "5", PMInputData.join⟩,
          ⟨2, "2", PMInputData.game 999⟩]).2 = true ∧
      (receiveServerTick pmEx 1 [⟨1, "5", PMInputData.join⟩,
          ⟨2, "2", PMInputData.game 999⟩]).1.rollbackCount = pmEx.rollbackCount + 1 ∧
      (receiveServerTick pmEx 1 [⟨1, "5", PMInputData.join⟩,
          ⟨2, "2", PMInputData.game 999⟩]).1.tickLog =
        pmEx.tickLog ++ (List.range (pmEx.localFrame + 1 - 1)).map (fun k => 1 + k)) :=
  ⟨by decide, by decide, by decide,
    C5_lifecycle_forces_rollback pmEx 1 [⟨1, "5", PMInputData.join⟩,
        ⟨2, "2", PMInputData.game 999⟩] (by decide) (by decide)
      ⟨⟨1, "5", PMInputData.join⟩, by decide, by decide⟩ (by decide)⟩

open Modu in
/-- C6: computeDegradationTier returns NORMAL exactly when every partition
was received and every sender trusted; otherwise DEGRADED exactly when
received is strictly above 0.75 of total; otherwise MINIMAL exactly when
received is strictly above 0.25 of total; otherwise SKIP — and the four
concrete examples of the spec evaluate accordingly. -/
theorem C6_degradation_tier (t r ts tot : Nat) :
    (computeDegradationTier t r ts tot = DegradationTier.NORMAL ↔ (r = t ∧ ts = tot)) ∧
    (computeDegradationTier t r ts tot = DegradationTier.DEGRADED ↔
      (¬(r = t ∧ ts = tot) ∧ (r : ℚ) > 0.75 * t)) ∧
    (computeDegradationTier t r ts tot = DegradationTier.MINIMAL ↔
      (¬(r = t ∧ ts = tot) ∧ ¬((r : ℚ) > 0.75 * t) ∧ (r : ℚ) > 0.25 * t)) ∧
    (computeDegradationTier t r ts tot = DegradationTier.SKIP ↔
      (¬(r = t ∧ ts = tot) ∧ ¬((r : ℚ) > 0.75 * t) ∧ ¬((r : ℚ) > 0.25 * t))) ∧
    computeDegradationTier 10 10 20 20 = DegradationTier.NORMAL ∧
    computeDegradationTier 10 8 15 20 = DegradationTier.DEGRADED ∧
    computeDegradationTier 10 4 5 20 = DegradationTier.MINIMAL ∧
    computeDegradationTier 10 2 2 20 = DegradationTier.SKIP := by
  have h75 : ((r : ℚ) > 0.75 * t) ↔ r * 4 > t * 3 := by
    constructor
    · intro hq
      have hq2 : ((t * 3 : Nat) : ℚ) < ((r * 4 : Nat) : ℚ) := by push_cast; linarith
      exact_mod_cast hq2
    · intro hn
      have hq2 : ((t * 3 : Nat) : ℚ) < ((r * 4 : Nat) : ℚ) := by exact_mod_cast hn
      push_cast at hq2
      linarith
  have h25 : ((r : ℚ) > 0.25 * t) ↔ r * 4 > t := by
    constructor
    · intro hq
      have hq2 : ((t : Nat) : ℚ) < ((r * 4 : Nat) : ℚ) := by push_cast; linarith
      exact_mod_cast hq2
    · intro hn
      have hq2 : ((t : Nat) : ℚ) < ((r * 4 : Nat) : ℚ) := by exact_mod_cast hn
      push_cast at hq2
      linarith
  refine ⟨?_, ?_, ?_, ?_, by decide, by decide, by decide, by decide⟩ <;>
    · unfold computeDegradationTier
      split_ifs with h1 h2 h3 <;>
        simp_all <;> omega

open Modu in
/-- C7: computePartitionCount equals the ceiling of entityCount/30 clamped
between 1 and max(1, 2 * clientCount), and returns exactly 1 whenever the
entity count or the client count is 0. -/
theorem C7_partition_count (e c : Nat) :
    computePartitionCount e c = max 1 (min (max 1 (2 * c)) ((e + 29) / 30)) ∧
    ((e = 0 ∨ c = 0) → computePartitionCount e c = 1) := by
  unfold computePartitionCount
  constructor
  · split_ifs with h1 h2 <;> omega
  · intro h
    split_ifs with h1 h2 <;> omega

open Modu in
/-- C8: execute_rollback to a frame whose predecessor snapshot is absent
from the ring only records a warning: the state is otherwise unchanged, so
no resimulation tick happens, no stats change, and — the model being a
total function — no exception escapes. -/
theorem C8_missing_snapshot_abort (st : PMState) (f : Nat)
    (h : (f - 1) ∉ st.snapshots) :
    executeRollback st f = { st with warnCount := st.warnCount + 1 } ∧
    (executeRollback st f).tickLog = st.tickLog ∧
    (executeRollback st f).rollbackCount = st.rollbackCount ∧
    (executeRollback st f).framesResimulated = st.framesResimulated := by
  unfold executeRollback
  rw [if_neg h]
  exact ⟨rfl, rfl, rfl, rfl⟩

open Modu in
/-- Witness for C8: rolling pmEx back to frame 50 with no snapshot at 49. -/
theorem C8_witness :
    (50 - 1) ∉ pmEx.snapshots ∧
    (executeRollback pmEx 50 = { pmEx with warnCount := pmEx.warnCount + 1 } ∧
      (executeRollback pmEx 50).tickLog = pmEx.tickLog ∧
      (executeRollback pmEx 50).rollbackCount = pmEx.rollbackCount ∧
      (executeRollback pmEx 50).framesResimulated = pmEx.framesResimulated) :=
  ⟨by decide, C8_missing_snapshot_abort pmEx 50 (by decide)⟩

open Modu in
/-- Counterexample to C9 as stated: two overlap pairs whose labels "a" and
"b" both parse to entity id 0 tie under the numeric comparator, so the
stable sort preserves input order and the events fired by processOverlaps
depend on the order of the input list. -/
theorem C9_counterexample :
    ([("a", "x"), ("b", "y")] : List (String × String)).Perm [("b", "y"), ("a", "x")] ∧
    (processOverlaps [] [("a", "x"), ("b", "y")]).1 ≠
      (processOverlaps [] [("b", "y"), ("a", "x")]).1 := by
  constructor
  · decide
  · decide

open Modu in
/-- C9 (amended): the pairs are visited, and enter/stay callbacks fired, in
ascending numeric (trigger id, other id) order parsed from the body labels;
when the parsed keys of the input pairs are pairwise distinct, the whole
result of processOverlaps is independent of the input list order; and exit
events for vanished pairs fire in ascending key order (for an overlap map
whose keys are the makeKey of their pair, as the class maintains). -/
theorem C9_trigger_order (m : List (String × (String × String)))
    (cur cur' : List (String × String)) (hperm : cur.Perm cur')
    (hkeys : cur.Pairwise (fun a b => overlapKey a ≠ overlapKey b))
    (hwf : ∀ kv ∈ m, kv.1 = makeKey kv.2.1 kv.2.2) :
    processOverlaps m cur = processOverlaps m cur' ∧
    (sortOverlaps cur).Pairwise overlapLeP ∧
    (exitKeys (processOverlaps m cur).1).Pairwise (fun a b : String => a ≤ b) := by
  refine ⟨?_, sortOverlaps_sorted cur, ?_⟩
  · unfold processOverlaps
    rw [sortOverlaps_eq_of_perm cur cur' hperm hkeys]
  · have hwf1 : ∀ kv ∈ (phase1 m [] (sortOverlaps cur)).1, kv.1 = makeKey kv.2.1 kv.2.2 :=
      phase1_wf _ m [] hwf
    have hfst : (processOverlaps m cur).1 =
        (phase1 m [] (sortOverlaps cur)).2.2 ++
          ((((phase1 m [] (sortOverlaps cur)).1.map Prod.fst).insertionSort (· ≤ ·)).filter
            (fun k => ¬ (phase1 m [] (sortOverlaps cur)).2.1.contains k)).filterMap
            (fun k => ((phase1 m [] (sortOverlaps cur)).1.lookup k).map
              (fun p => TriggerEvent.exit p.1 p.2)) := rfl
    rw [hfst]
    unfold exitKeys
    rw [List.filterMap_append]
    have h0 : exitKeys (phase1 m [] (sortOverlaps cur)).2.2 = [] :=
      phase1_exitKeys_nil _ m []
    unfold exitKeys at h0
    rw [h0, List.nil_append]
    have hsortedkeys :
        ((((phase1 m [] (sortOverlaps cur)).1.map Prod.fst).insertionSort (· ≤ ·)).filter
          (fun k => ¬ (phase1 m [] (sortOverlaps cur)).2.1.contains k)).Pairwise
          (fun a b : String => a ≤ b) :=
      List.Pairwise.sublist (List.filter_sublist _)
        (List.sorted_insertionSort _ _)
    have hmemlem : ∀ k ∈ ((((phase1 m [] (sortOverlaps cur)).1.map Prod.fst).insertionSort
          (· ≤ ·)).filter (fun k => ¬ (phase1 m [] (sortOverlaps cur)).2.1.contains k)),
        ∃ p, (phase1 m [] (sortOverlaps cur)).1.lookup k = some p ∧ makeKey p.1 p.2 = k := by
      intro k hk
      have hk2 : k ∈ ((phase1 m [] (sortOverlaps cur)).1.map Prod.fst).insertionSort (· ≤ ·) :=
        (List.mem_filter.mp hk).1
      have hk3 : k ∈ (phase1 m [] (sortOverlaps cur)).1.map Prod.fst :=
        (List.perm_insertionSort _ _).mem_iff.mp hk2
      exact lookup_wf _ hwf1 k hk3
    have hv := exitKeys_filterMap_lookup _ _ hmemlem
    unfold exitKeys at hv
    rw [hv]
    exact hsortedkeys

open Modu in
/-- Witness for C9: a one-pair map, two current pairs given in both orders. -/
theorem C9_witness :
    ([("3", "4"), ("1", "5")] : List (String × String)).Perm [("1", "5"), ("3", "4")] ∧
    ([("3", "4"), ("1", "5")] : List (String × String)).Pairwise
      (fun a b => overlapKey a ≠ overlapKey b) ∧
    (processOverlaps [("1:2", ("1", "2"))] [("3", "4"), ("1", "5")] =
        processOverlaps [("1:2", ("1", "2"))] [("1", "5"), ("3", "4")] ∧
      (sortOverlaps [("3", "4"), ("1", "5")]).Pairwise overlapLeP ∧
      (exitKeys (processOverlaps [("1:2", ("1", "2"))] [("3", "4"), ("1", "5")]).1).Pairwise
        (fun a b : String => a ≤ b)) :=
  ⟨by decide, by decide,
    C9_trigger_order [("1:2", ("1", "2"))] [("3", "4"), ("1", "5")] [("1", "5"), ("3", "4")]
      (by decide) (by decide) (by decide)⟩

open Modu in
/-- C10: whenever the number of peers is at most senders_per_partition,
every partition receives the identical sender list — the full peer list
sorted ascending — independent of the frame number and of every
reliability score. -/
theorem C10_full_roster (e f g s : Nat) (rel rel2 : String → Option Int)
    (P : List String) (h : P.length ≤ s) :
    (computePartitionAssignment e P f rel s).partitionSenders =
      List.replicate (computePartitionAssignment e P f rel s).numPartitions
        (P.insertionSort (· ≤ ·)) ∧
    (computePartitionAssignment e P f rel s).partitionSenders =
      (computePartitionAssignment e P g rel2 s).partitionSenders := by
  have hlen : (P.insertionSort (· ≤ ·)).length = P.length := List.length_insertionSort _ P
  have key : ∀ (fr : Nat) (r : String → Option Int),
      (computePartitionAssignment e P fr r s).partitionSenders =
        List.replicate (computePartitionCount e P.length) (P.insertionSort (· ≤ ·)) := by
    intro fr r
    unfold computePartitionAssignment
    simp only [hlen]
    refine List.eq_replicate.mpr ⟨by simp, ?_⟩
    intro x hx
    simp only [List.mem_map, List.mem_range] at hx
    obtain ⟨pid, _, rfl⟩ := hx
    exact weightedRandomPick_all (by omega)
  have hnum : (computePartitionAssignment e P f rel s).numPartitions =
      computePartitionCount e P.length := by
    unfold computePartitionAssignment
    simp [hlen]
  exact ⟨by rw [key f rel, hnum], by rw [key f rel, key g rel2]⟩

open Modu in
/-- Witness for C10 with two peers, two senders per partition, and two
different frames and reliability maps. -/
theorem C10_witness :
    (["b", "a"] : List String).length ≤ 2 ∧
    ((computePartitionAssignment 100 ["b", "a"] 7 (fun _ => none) 2).partitionSenders =
        List.replicate (computePartitionAssignment 100 ["b", "a"] 7 (fun _ => none) 2).numPartitions
          (["b", "a"].insertionSort (· ≤ ·)) ∧
      (computePartitionAssignment 100 ["b", "a"] 7 (fun _ => none) 2).partitionSenders =
        (computePartitionAssignment 100 ["b", "a"] 8 (fun _ => some 3) 2).partitionSenders) :=
  ⟨by decide, C10_full_roster 100 7 8 2 (fun _ => none) (fun _ => some 3) _ (by decide)⟩
